import Mathlib

/-!
Verification of the two sample algorithm files of the repository
(`src/samples/algorithms.cpp` and `src/samples/algorithms_clone.cpp`).

Sequences of C++ `int` are modelled as `List Int`; `std::vector` indexing
`arr[i]` with an in-bounds index is modelled as `List.getD` (the default is
never read at in-bounds indices, which the safety lemmas establish).

The inner loop of both sorts (`for (j = 0; j < n - i - 1; j++) if (a[j] > a[j+1]) swap`)
is modelled as `passN b l`: a left-to-right bubbling pass performing `b`
adjacent comparisons, returning the rearranged list together with the flag
telling whether any exchange happened (the `swapped` variable of `sortArray`;
`bubbleSort` computes the same pass but keeps no flag).
-/

/-- One inner pass of the exchange sort: `b` adjacent comparisons from the
left, swapping each out-of-order pair; the boolean records whether any swap
occurred. -/
def passN : Nat → List Int → List Int × Bool
  | 0, l => (l, false)
  | Nat.succ b, a0 :: a1 :: t =>
      if a1 < a0 then
        (a1 :: (passN b (a0 :: t)).1, true)
      else
        (a0 :: (passN b (a1 :: t)).1, (passN b (a1 :: t)).2)
  | Nat.succ _, l => (l, false)

/-- Outer loop of `bubbleSort` (algorithms.cpp, lines 6-12): the pass with
bound `m` is followed unconditionally by the passes with smaller bounds;
there is no early exit. -/
def bubbleLoop : Nat → List Int → List Int
  | 0, l => l
  | Nat.succ m, l => bubbleLoop m (passN (Nat.succ m) l).1

/-- `bubbleSort` of algorithms.cpp: `n - 1` passes with shrinking inner
bounds `n - 1, n - 2, ..., 1`. -/
def bubbleSort (arr : List Int) : List Int :=
  bubbleLoop (arr.length - 1) arr

/-- Outer loop of `sortArray` (algorithms_clone.cpp, lines 10-22): after a
pass whose `swapped` flag is false the loop breaks. -/
def sortLoop : Nat → List Int → List Int
  | 0, l => l
  | Nat.succ m, l =>
      if (passN (Nat.succ m) l).2 then sortLoop m (passN (Nat.succ m) l).1
      else (passN (Nat.succ m) l).1

/-- `sortArray` of algorithms_clone.cpp. -/
def sortArray (data : List Int) : List Int :=
  sortLoop (data.length - 1) data

/-- Number of executed outer-loop iterations of `bubbleSort` (instrumentation
of `bubbleLoop`: each pass counts one). -/
def bubbleLoopCount : Nat → List Int → Nat
  | 0, _ => 0
  | Nat.succ m, l => bubbleLoopCount m (passN (Nat.succ m) l).1 + 1

/-- Passes performed by `bubbleSort`. -/
def bubbleSortPasses (arr : List Int) : Nat :=
  bubbleLoopCount (arr.length - 1) arr

/-- Number of executed outer-loop iterations of `sortArray` (instrumentation
of `sortLoop`: a pass with a false `swapped` flag is the last one). -/
def sortLoopCount : Nat → List Int → Nat
  | 0, _ => 0
  | Nat.succ m, l =>
      if (passN (Nat.succ m) l).2 then sortLoopCount m (passN (Nat.succ m) l).1 + 1
      else 1

/-- Passes performed by `sortArray`. -/
def sortArrayPasses (data : List Int) : Nat :=
  sortLoopCount (data.length - 1) data

/-- Loop of `binarySearch` (algorithms.cpp, lines 18-26): while `low ≤ high`,
probe `mid = low + (high - low) / 2` and narrow the window. -/
def binarySearchGo (arr : List Int) (target low high : Int) : Int :=
  if low ≤ high then
    if arr.getD (low + (high - low) / 2).toNat 0 = target then
      low + (high - low) / 2
    else if arr.getD (low + (high - low) / 2).toNat 0 < target then
      binarySearchGo arr target (low + (high - low) / 2 + 1) high
    else
      binarySearchGo arr target low (low + (high - low) / 2 - 1)
  else -1
termination_by (high + 1 - low).toNat
decreasing_by
  · simp_wf
    omega
  · simp_wf
    omega

/-- `binarySearch` of algorithms.cpp: the loop started at `left = 0`,
`right = arr.size() - 1`. -/
def binarySearch (arr : List Int) (target : Int) : Int :=
  binarySearchGo arr target 0 ((arr.length : Int) - 1)

/-- Loop of `findElement` (algorithms_clone.cpp, lines 29-37); character for
character the same algorithm as `binarySearchGo`. -/
def findElementGo (list : List Int) (key low high : Int) : Int :=
  if low ≤ high then
    if list.getD (low + (high - low) / 2).toNat 0 = key then
      low + (high - low) / 2
    else if list.getD (low + (high - low) / 2).toNat 0 < key then
      findElementGo list key (low + (high - low) / 2 + 1) high
    else
      findElementGo list key low (low + (high - low) / 2 - 1)
  else -1
termination_by (high + 1 - low).toNat
decreasing_by
  · simp_wf
    omega
  · simp_wf
    omega

/-- `findElement` of algorithms_clone.cpp. -/
def findElement (list : List Int) (key : Int) : Int :=
  findElementGo list key 0 ((list.length : Int) - 1)

/-- Fuel-indexed version of the shared search loop: `none` when the fuel runs
out before the loop finishes. Showing it returns `some` for an explicit fuel
is the termination bound of the loop. -/
def searchLoopFuel : Nat → List Int → Int → Int → Int → Option Int
  | 0, _, _, _, _ => none
  | Nat.succ f, arr, target, low, high =>
      if low ≤ high then
        if arr.getD (low + (high - low) / 2).toNat 0 = target then
          some (low + (high - low) / 2)
        else if arr.getD (low + (high - low) / 2).toNat 0 < target then
          searchLoopFuel f arr target (low + (high - low) / 2 + 1) high
        else
          searchLoopFuel f arr target low (low + (high - low) / 2 - 1)
      else some (-1)

/-- The sequence of indices `mid` at which the search loop reads the array,
in probe order: instrumentation of `binarySearchGo` / `findElementGo`. -/
def searchAccesses (arr : List Int) (target low high : Int) : List Int :=
  if low ≤ high then
    if arr.getD (low + (high - low) / 2).toNat 0 = target then
      [low + (high - low) / 2]
    else if arr.getD (low + (high - low) / 2).toNat 0 < target then
      (low + (high - low) / 2) :: searchAccesses arr target (low + (high - low) / 2 + 1) high
    else
      (low + (high - low) / 2) :: searchAccesses arr target low (low + (high - low) / 2 - 1)
  else []
termination_by (high + 1 - low).toNat
decreasing_by
  · simp_wf
    omega
  · simp_wf
    omega

theorem passN_length (b : Nat) (l : List Int) : (passN b l).1.length = l.length := by
  induction b generalizing l with
  | zero => simp [passN]
  | succ b ih =>
      match l with
      | [] => simp [passN]
      | [a] => simp [passN]
      | a0 :: a1 :: t =>
          by_cases h : a1 < a0 <;> simp [passN, h, ih]

theorem passN_perm (b : Nat) (l : List Int) : (passN b l).1.Perm l := by
  induction b generalizing l with
  | zero => simp [passN]
  | succ b ih =>
      match l with
      | [] => simp [passN]
      | [a] => simp [passN]
      | a0 :: a1 :: t =>
          by_cases h : a1 < a0
          · simp only [passN, h, if_pos]
            exact ((ih (a0 :: t)).cons a1).trans (List.Perm.swap a0 a1 t)
          · simp only [passN, h, if_neg, not_false_iff]
            exact (ih (a1 :: t)).cons a0

theorem passN_of_flag_false (b : Nat) (l : List Int) (h : (passN b l).2 = false) :
    (passN b l).1 = l := by
  induction b generalizing l with
  | zero => simp [passN]
  | succ b ih =>
      match l with
      | [] => simp [passN]
      | [a] => simp [passN]
      | a0 :: a1 :: t =>
          by_cases hc : a1 < a0
          · simp [passN, hc] at h
          · simp only [passN, hc, if_neg, not_false_iff] at h ⊢
            rw [ih (a1 :: t) h]

theorem passN_flag_false_of_succ (b : Nat) (l : List Int)
    (h : (passN (b + 1) l).2 = false) : (passN b l).2 = false := by
  induction b generalizing l with
  | zero => simp [passN]
  | succ b ih =>
      match l with
      | [] => simp [passN]
      | [a] => simp [passN]
      | a0 :: a1 :: t =>
          by_cases hc : a1 < a0
          · simp [passN, hc] at h
          · simp only [passN, hc, if_neg, not_false_iff] at h ⊢
            exact ih (a1 :: t) h

theorem passN_flag_false_mono (b k : Nat) (l : List Int) (hk : k ≤ b)
    (h : (passN b l).2 = false) : (passN k l).2 = false := by
  induction b with
  | zero =>
      have : k = 0 := Nat.le_zero.mp hk
      simpa [this] using h
  | succ b ih =>
      rcases Nat.lt_or_ge k (b + 1) with hlt | hge
      · exact ih (Nat.lt_succ_iff.mp hlt) (passN_flag_false_of_succ b l h)
      · have : k = b + 1 := Nat.le_antisymm hk hge
        simpa [this] using h

theorem passN_of_pairwise (b : Nat) (l : List Int)
    (h : l.Pairwise (· ≤ ·)) : passN b l = (l, false) := by
  induction b generalizing l with
  | zero => simp [passN]
  | succ b ih =>
      match l with
      | [] => simp [passN]
      | [a] => simp [passN]
      | a0 :: a1 :: t =>
          rw [List.pairwise_cons] at h
          have h01 : a0 ≤ a1 := h.1 a1 (by simp)
          have hc : ¬ a1 < a0 := not_lt.mpr h01
          simp only [passN, hc, if_neg, not_false_iff]
          rw [ih (a1 :: t) h.2]

theorem passN_step (b : Nat) (l : List Int)
    (h1 : (l.drop (b + 1)).Pairwise (· ≤ ·))
    (h2 : ∀ x ∈ l.take (b + 1), ∀ y ∈ l.drop (b + 1), x ≤ y) :
    ((passN b l).1.drop b).Pairwise (· ≤ ·) ∧
    (∀ x ∈ l.take (b + 1), ∀ y ∈ (passN b l).1.drop b, x ≤ y) ∧
    (∀ x ∈ (passN b l).1.take b, x ∈ l.take (b + 1)) := by
  induction b generalizing l with
  | zero =>
      refine ⟨?_, ?_, ?_⟩
      · match l with
        | [] => simp [passN]
        | a :: t =>
            simp only [passN, List.drop_zero]
            rw [List.pairwise_cons]
            refine ⟨fun y hy => h2 a (by simp) y ?_, by simpa using h1⟩
            simpa using hy
      · match l with
        | [] => simp [passN]
        | a :: t =>
            simp only [passN, List.drop_zero]
            intro x hx y hy
            have hxa : x = a := by simpa using hx
            subst hxa
            rcases List.mem_cons.mp hy with hya | hyt
            · exact le_of_eq hya.symm
            · exact h2 x (by simp) y (by simpa using hyt)
      · simp [passN]
  | succ b ih =>
      match l with
      | [] =>
          refine ⟨?_, ?_, ?_⟩ <;> simp [passN]
      | [a] =>
          refine ⟨?_, ?_, ?_⟩ <;> simp [passN]
      | a0 :: a1 :: t =>
          have h1t : (t.drop b).Pairwise (· ≤ ·) := by
            simpa [List.drop_succ_cons] using h1
          have h2t : ∀ x ∈ a0 :: a1 :: t.take b, ∀ y ∈ t.drop b, x ≤ y := by
            intro x hx y hy
            exact h2 x (by simpa [List.take_succ_cons] using hx) y
              (by simpa [List.drop_succ_cons] using hy)
          by_cases hc : a1 < a0
          · have hr := ih (a0 :: t)
              (by simpa [List.drop_succ_cons] using h1t)
              (by
                intro x hx y hy
                apply h2t x ?_ y (by simpa [List.drop_succ_cons] using hy)
                rcases List.mem_cons.mp (by simpa [List.take_succ_cons] using hx) with h | h
                · exact h ▸ List.mem_cons_self a0 _
                · exact List.mem_cons_of_mem a0 (List.mem_cons_of_mem a1 h))
            simp only [passN, if_pos hc, List.drop_succ_cons, List.take_succ_cons]
            refine ⟨hr.1, ?_, ?_⟩
            · intro x hx y hy
              rcases List.mem_cons.mp hx with hx0 | hx
              · exact hx0 ▸ hr.2.1 a0 (List.mem_cons_self a0 _) y hy
              rcases List.mem_cons.mp hx with hx1 | hxt
              · exact hx1 ▸ le_trans (le_of_lt hc)
                  (hr.2.1 a0 (List.mem_cons_self a0 _) y hy)
              · exact hr.2.1 x (List.mem_cons_of_mem a0 (by simpa [List.take_succ_cons] using hxt)) y hy
            · intro x hx
              rcases List.mem_cons.mp hx with hx1 | hxr
              · rw [hx1]
                exact List.mem_cons_of_mem a0 (List.mem_cons_self a1 _)
              · rcases List.mem_cons.mp (by simpa [List.take_succ_cons] using hr.2.2 x hxr) with h | h
                · rw [h]
                  exact List.mem_cons_self a0 _
                · exact List.mem_cons_of_mem a0 (List.mem_cons_of_mem a1 h)
          · have ha01 : a0 ≤ a1 := not_lt.mp hc
            have hr := ih (a1 :: t)
              (by simpa [List.drop_succ_cons] using h1t)
              (by
                intro x hx y hy
                apply h2t x ?_ y (by simpa [List.drop_succ_cons] using hy)
                rcases List.mem_cons.mp (by simpa [List.take_succ_cons] using hx) with h | h
                · rw [h]
                  exact List.mem_cons_of_mem a0 (List.mem_cons_self a1 _)
                · exact List.mem_cons_of_mem a0 (List.mem_cons_of_mem a1 h))
            simp only [passN, if_neg hc, List.drop_succ_cons, List.take_succ_cons]
            refine ⟨hr.1, ?_, ?_⟩
            · intro x hx y hy
              rcases List.mem_cons.mp hx with hx0 | hx
              · exact hx0 ▸ le_trans ha01
                  (hr.2.1 a1 (List.mem_cons_self a1 _) y hy)
              rcases List.mem_cons.mp hx with hx1 | hxt
              · exact hx1 ▸ hr.2.1 a1 (List.mem_cons_self a1 _) y hy
              · exact hr.2.1 x (List.mem_cons_of_mem a1 (by simpa [List.take_succ_cons] using hxt)) y hy
            · intro x hx
              rcases List.mem_cons.mp hx with hx0 | hxr
              · exact hx0 ▸ List.mem_cons_self a0 _
              · rcases List.mem_cons.mp (by simpa [List.take_succ_cons] using hr.2.2 x hxr) with h | h
                · rw [h]
                  exact List.mem_cons_of_mem a0 (List.mem_cons_self a1 _)
                · exact List.mem_cons_of_mem a0 (List.mem_cons_of_mem a1 h)

theorem bubbleLoop_pairwise (k : Nat) (l : List Int)
    (h1 : (l.drop (k + 1)).Pairwise (· ≤ ·))
    (h2 : ∀ x ∈ l.take (k + 1), ∀ y ∈ l.drop (k + 1), x ≤ y) :
    (bubbleLoop k l).Pairwise (· ≤ ·) := by
  induction k generalizing l with
  | zero =>
      match l with
      | [] => simp [bubbleLoop]
      | a :: t =>
          simp only [bubbleLoop]
          rw [List.pairwise_cons]
          refine ⟨fun y hy => h2 a (by simp) y (by simpa using hy), by simpa using h1⟩
  | succ k ih =>
      have hs := passN_step (k + 1) l h1 h2
      simp only [bubbleLoop]
      exact ih (passN (k + 1) l).1 hs.1
        (fun x hx y hy => hs.2.1 x (hs.2.2 x hx) y hy)

theorem bubbleSort_pairwise (l : List Int) : (bubbleSort l).Pairwise (· ≤ ·) := by
  have hd : l.drop (l.length - 1 + 1) = [] := List.drop_eq_nil_of_le (by omega)
  refine bubbleLoop_pairwise (l.length - 1) l ?_ ?_
  · rw [hd]
    exact List.Pairwise.nil
  · intro x hx y hy
    rw [hd] at hy
    exact absurd hy (List.not_mem_nil y)

theorem bubbleLoop_perm (k : Nat) (l : List Int) : (bubbleLoop k l).Perm l := by
  induction k generalizing l with
  | zero => simp [bubbleLoop]
  | succ k ih =>
      simp only [bubbleLoop]
      exact (ih (passN (k + 1) l).1).trans (passN_perm (k + 1) l)

theorem bubbleSort_perm (l : List Int) : (bubbleSort l).Perm l :=
  bubbleLoop_perm (l.length - 1) l

theorem bubbleLoop_of_pairwise (k : Nat) (l : List Int)
    (h : l.Pairwise (· ≤ ·)) : bubbleLoop k l = l := by
  induction k with
  | zero => simp [bubbleLoop]
  | succ k ih =>
      simp only [bubbleLoop, passN_of_pairwise (k + 1) l h]
      exact ih

theorem bubbleLoop_of_flag_false (b k : Nat) (l : List Int) (hk : k ≤ b)
    (h : (passN b l).2 = false) : bubbleLoop k l = l := by
  induction k with
  | zero => simp [bubbleLoop]
  | succ k ih =>
      have hf : (passN (k + 1) l).2 = false := passN_flag_false_mono b (k + 1) l hk h
      simp only [bubbleLoop, passN_of_flag_false (k + 1) l hf]
      exact ih (Nat.le_of_succ_le hk)

theorem sortLoop_eq_bubbleLoop (m : Nat) (l : List Int) :
    sortLoop m l = bubbleLoop m l := by
  induction m generalizing l with
  | zero => simp [sortLoop, bubbleLoop]
  | succ m ih =>
      by_cases hf : (passN (m + 1) l).2
      · simp only [sortLoop, bubbleLoop, hf, if_pos]
        exact ih (passN (m + 1) l).1
      · rw [Bool.not_eq_true] at hf
        simp only [sortLoop, bubbleLoop, hf]
        rw [passN_of_flag_false (m + 1) l hf]
        rw [bubbleLoop_of_flag_false (m + 1) m l (Nat.le_succ m) hf]
        simp

theorem sortArray_eq_bubbleSort (l : List Int) : sortArray l = bubbleSort l :=
  sortLoop_eq_bubbleLoop (l.length - 1) l

theorem bubbleSort_idem (l : List Int) : bubbleSort (bubbleSort l) = bubbleSort l :=
  bubbleLoop_of_pairwise ((bubbleSort l).length - 1) (bubbleSort l) (bubbleSort_pairwise l)

theorem bubbleLoopCount_eq (m : Nat) (l : List Int) : bubbleLoopCount m l = m := by
  induction m generalizing l with
  | zero => simp [bubbleLoopCount]
  | succ m ih => simp [bubbleLoopCount, ih]

theorem sortLoopCount_le (m : Nat) (l : List Int) : sortLoopCount m l ≤ m := by
  induction m generalizing l with
  | zero => simp [sortLoopCount]
  | succ m ih =>
      by_cases hf : (passN (m + 1) l).2
      · simp only [sortLoopCount, hf, if_pos]
        exact Nat.succ_le_succ (ih (passN (m + 1) l).1)
      · simp only [sortLoopCount, hf]
        simp

theorem getD_mem_of_lt (l : List Int) (n : Nat) (hn : n < l.length) : l.getD n 0 ∈ l := by
  rw [List.getD_eq_getElem l 0 hn]
  exact List.getElem_mem hn

theorem pairwise_getD_le (l : List Int) (h : l.Pairwise (· ≤ ·)) (i j : Nat)
    (hij : i ≤ j) (hj : j < l.length) : l.getD i 0 ≤ l.getD j 0 := by
  have hi : i < l.length := lt_of_le_of_lt hij hj
  rw [List.getD_eq_getElem l 0 hi, List.getD_eq_getElem l 0 hj]
  rcases Nat.eq_or_lt_of_le hij with he | hlt
  · subst he
    exact le_refl _
  · exact List.pairwise_iff_getElem.mp h i j hi hj hlt

theorem searchLoopFuel_binarySearchGo (f : Nat) (arr : List Int) (t : Int) :
    ∀ low high : Int, (high + 1 - low).toNat < f →
    searchLoopFuel f arr t low high = some (binarySearchGo arr t low high) := by
  induction f with
  | zero => exact fun low high hf => absurd hf (Nat.not_lt_zero _)
  | succ f ih =>
      intro low high hf
      rw [binarySearchGo.eq_def]
      simp only [searchLoopFuel]
      split_ifs with hlh heq hlt
      · rfl
      · exact ih (low + (high - low) / 2 + 1) high (by omega)
      · exact ih low (low + (high - low) / 2 - 1) (by omega)
      · rfl

theorem searchLoopFuel_findElementGo (f : Nat) (arr : List Int) (t : Int) :
    ∀ low high : Int, (high + 1 - low).toNat < f →
    searchLoopFuel f arr t low high = some (findElementGo arr t low high) := by
  induction f with
  | zero => exact fun low high hf => absurd hf (Nat.not_lt_zero _)
  | succ f ih =>
      intro low high hf
      rw [findElementGo.eq_def]
      simp only [searchLoopFuel]
      split_ifs with hlh heq hlt
      · rfl
      · exact ih (low + (high - low) / 2 + 1) high (by omega)
      · exact ih low (low + (high - low) / 2 - 1) (by omega)
      · rfl

theorem findElementGo_eq_binarySearchGo (arr : List Int) (t low high : Int) :
    findElementGo arr t low high = binarySearchGo arr t low high := by
  have h1 := searchLoopFuel_binarySearchGo ((high + 1 - low).toNat + 1) arr t low high
    (Nat.lt_succ_self _)
  have h2 := searchLoopFuel_findElementGo ((high + 1 - low).toNat + 1) arr t low high
    (Nat.lt_succ_self _)
  exact Option.some.inj (h2.symm.trans h1)

theorem findElement_eq_binarySearch (arr : List Int) (t : Int) :
    findElement arr t = binarySearch arr t :=
  findElementGo_eq_binarySearchGo arr t 0 ((arr.length : Int) - 1)

theorem searchLoopFuel_valid (f : Nat) (arr : List Int) (t : Int) :
    ∀ low high r : Int, 0 ≤ low → high < (arr.length : Int) →
    searchLoopFuel f arr t low high = some r →
    r = -1 ∨ (0 ≤ r ∧ r < (arr.length : Int) ∧ arr.getD r.toNat 0 = t) := by
  induction f with
  | zero => exact fun low high r _ _ h => absurd h (by simp [searchLoopFuel])
  | succ f ih =>
      intro low high r h0 hlen h
      simp only [searchLoopFuel] at h
      split_ifs at h with hlh heq hlt
      · right
        have hr : low + (high - low) / 2 = r := Option.some.inj h
        refine ⟨by omega, by omega, ?_⟩
        rw [← hr]
        exact heq
      · exact ih (low + (high - low) / 2 + 1) high r (by omega) hlen h
      · exact ih low (low + (high - low) / 2 - 1) r h0 (by omega) h
      · left
        exact (Option.some.inj h).symm

theorem searchLoopFuel_found (f : Nat) (arr : List Int) (t : Int)
    (hp : arr.Pairwise (· ≤ ·)) :
    ∀ low high r : Int, 0 ≤ low → high < (arr.length : Int) →
    (∃ k : Nat, k < arr.length ∧ low ≤ (k : Int) ∧ (k : Int) ≤ high ∧ arr.getD k 0 = t) →
    searchLoopFuel f arr t low high = some r → 0 ≤ r := by
  induction f with
  | zero => exact fun low high r _ _ _ h => absurd h (by simp [searchLoopFuel])
  | succ f ih =>
      intro low high r h0 hlen hex h
      obtain ⟨k, hk, hk1, hk2, hkt⟩ := hex
      have hlh : low ≤ high := le_trans hk1 hk2
      simp only [searchLoopFuel] at h
      split_ifs at h with heq hlt
      · have hr : low + (high - low) / 2 = r := Option.some.inj h
        omega
      · refine ih (low + (high - low) / 2 + 1) high r (by omega) hlen ⟨k, hk, ?_, hk2, hkt⟩ h
        by_contra hcon
        have hkm : k ≤ (low + (high - low) / 2).toNat := by omega
        have hmlen : (low + (high - low) / 2).toNat < arr.length := by omega
        have := pairwise_getD_le arr hp k (low + (high - low) / 2).toNat hkm hmlen
        rw [hkt] at this
        exact absurd (lt_of_lt_of_le hlt this) (lt_irrefl _)
      · have hgt : t < arr.getD (low + (high - low) / 2).toNat 0 :=
          lt_of_le_of_ne (not_lt.mp hlt) (fun he => heq he.symm)
        refine ih low (low + (high - low) / 2 - 1) r h0 (by omega) ⟨k, hk, hk1, ?_, hkt⟩ h
        by_contra hcon
        have hkm : (low + (high - low) / 2).toNat ≤ k := by omega
        have := pairwise_getD_le arr hp (low + (high - low) / 2).toNat k hkm hk
        rw [hkt] at this
        exact absurd (lt_of_lt_of_le hgt this) (lt_irrefl t)

theorem searchLoopFuel_absent (f : Nat) (arr : List Int) (t : Int) (hni : t ∉ arr) :
    ∀ low high r : Int, 0 ≤ low → high < (arr.length : Int) →
    searchLoopFuel f arr t low high = some r → r = -1 := by
  induction f with
  | zero => exact fun low high r _ _ h => absurd h (by simp [searchLoopFuel])
  | succ f ih =>
      intro low high r h0 hlen h
      simp only [searchLoopFuel] at h
      split_ifs at h with hlh heq hlt
      · exfalso
        apply hni
        rw [← heq]
        exact getD_mem_of_lt arr (low + (high - low) / 2).toNat (by omega)
      · exact ih (low + (high - low) / 2 + 1) high r (by omega) hlen h
      · exact ih low (low + (high - low) / 2 - 1) r h0 (by omega) h
      · exact (Option.some.inj h).symm

theorem searchAccesses_bounds (n : Nat) (arr : List Int) (t : Int) :
    ∀ low high : Int, (high + 1 - low).toNat ≤ n → 0 ≤ low → high < (arr.length : Int) →
    ∀ a ∈ searchAccesses arr t low high, 0 ≤ a ∧ a < (arr.length : Int) := by
  induction n with
  | zero =>
      intro low high hn h0 hlen a ha
      have hlh : ¬ low ≤ high := by omega
      rw [searchAccesses.eq_def] at ha
      simp [hlh] at ha
  | succ n ih =>
      intro low high hn h0 hlen a ha
      rw [searchAccesses.eq_def] at ha
      split_ifs at ha with hlh heq hlt
      · have : a = low + (high - low) / 2 := by simpa using ha
        constructor <;> omega
      · rcases List.mem_cons.mp ha with h1 | h2
        · constructor <;> omega
        · exact ih (low + (high - low) / 2 + 1) high (by omega) (by omega) hlen a h2
      · rcases List.mem_cons.mp ha with h1 | h2
        · constructor <;> omega
        · exact ih low (low + (high - low) / 2 - 1) (by omega) h0 (by omega) a h2
      · exact absurd ha (List.not_mem_nil a)

/-- Claim C1: for every finite integer sequence S, after running ExchangeSort
on S (either implementation, bubbleSort or sortArray), every adjacent pair
(i, i+1) of the resulting sequence satisfies S[i] <= S[i+1]. -/
theorem claim_C1_sortedness (S : List Int) :
    List.Chain' (· ≤ ·) (bubbleSort S) ∧ List.Chain' (· ≤ ·) (sortArray S) := by
  refine ⟨List.Pairwise.chain' (bubbleSort_pairwise S), ?_⟩
  rw [sortArray_eq_bubbleSort]
  exact List.Pairwise.chain' (bubbleSort_pairwise S)

/-- Claim C2, counterexample: on the already-sorted input [1, 2, 3] the first
full pass performs zero exchanges, yet bubbleSort still performs a second
pass (it has no swapped flag), while sortArray stops after one pass; so the
early-exit part of the claim is false for bubbleSort. -/
theorem claim_C2_counterexample :
    (passN 2 [1, 2, 3]).2 = false ∧ bubbleSortPasses [1, 2, 3] = 2 ∧
      sortArrayPasses [1, 2, 3] = 1 := by
  decide

/-- Claim C2 (amended): sortArray tracks the swapped flag and performs no
further pass once a full pass has zero exchanges, and this early exit does
not change the resulting sequence; bubbleSort, however, tracks nothing and
always performs all length-1 passes. -/
theorem claim_C2_early_exit (S : List Int) :
    sortArray S = bubbleSort S ∧
    bubbleSortPasses S = S.length - 1 ∧
    ((passN (S.length - 1) S).2 = false → 2 ≤ S.length → sortArrayPasses S = 1) := by
  refine ⟨sortArray_eq_bubbleSort S, bubbleLoopCount_eq _ _, ?_⟩
  intro hf hlen
  unfold sortArrayPasses
  have hsplit : S.length - 1 = (S.length - 2) + 1 := by omega
  rw [hsplit] at hf ⊢
  simp [sortLoopCount, hf]

/-- Witness for claim C2's amended theorem at the concrete input [1, 2, 3]. -/
theorem claim_C2_witness :
    sortArray ([1, 2, 3] : List Int) = bubbleSort [1, 2, 3] ∧
    bubbleSortPasses ([1, 2, 3] : List Int) = ([1, 2, 3] : List Int).length - 1 ∧
    sortArrayPasses ([1, 2, 3] : List Int) = 1 :=
  ⟨(claim_C2_early_exit [1, 2, 3]).1, (claim_C2_early_exit [1, 2, 3]).2.1,
    (claim_C2_early_exit [1, 2, 3]).2.2 (by decide) (by decide)⟩

/-- Claim C3: the two source files are duplicate implementations of one
logical component: bubbleSort and sortArray agree on every input, and
binarySearch and findElement agree on every input and target. -/
theorem claim_C3_duplicates_agree :
    (∀ S : List Int, sortArray S = bubbleSort S) ∧
    (∀ (S : List Int) (target : Int), findElement S target = binarySearch S target) :=
  ⟨sortArray_eq_bubbleSort, findElement_eq_binarySearch⟩

/-- Claim C4: the multiset of elements of S after ExchangeSort equals the
multiset before the call, for both bubbleSort and sortArray. -/
theorem claim_C4_permutation (S : List Int) :
    (bubbleSort S : Multiset Int) = (S : Multiset Int) ∧
    (sortArray S : Multiset Int) = (S : Multiset Int) := by
  refine ⟨Multiset.coe_eq_coe.mpr (bubbleSort_perm S), ?_⟩
  rw [sortArray_eq_bubbleSort]
  exact Multiset.coe_eq_coe.mpr (bubbleSort_perm S)

/-- Claim C5: for every ascending-sorted sequence S and every valid index k,
searching for S[k] returns a valid index holding a value equal to S[k], for
both binarySearch and findElement. -/
theorem claim_C5_search_finds (S : List Int) (hs : List.Chain' (· ≤ ·) S)
    (k : Nat) (hk : k < S.length) :
    0 ≤ binarySearch S (S.getD k 0) ∧
    (binarySearch S (S.getD k 0)).toNat < S.length ∧
    S.getD (binarySearch S (S.getD k 0)).toNat 0 = S.getD k 0 ∧
    findElement S (S.getD k 0) = binarySearch S (S.getD k 0) := by
  have hp : S.Pairwise (· ≤ ·) := List.chain'_iff_pairwise.mp hs
  have hfu := searchLoopFuel_binarySearchGo (S.length + 1) S (S.getD k 0) 0
    ((S.length : Int) - 1) (by omega)
  have hge := searchLoopFuel_found (S.length + 1) S (S.getD k 0) hp 0
    ((S.length : Int) - 1) (binarySearchGo S (S.getD k 0) 0 ((S.length : Int) - 1))
    (by omega) (by omega) ⟨k, hk, by omega, by omega, rfl⟩ hfu
  have hval := searchLoopFuel_valid (S.length + 1) S (S.getD k 0) 0
    ((S.length : Int) - 1) (binarySearchGo S (S.getD k 0) 0 ((S.length : Int) - 1))
    (by omega) (by omega) hfu
  rcases hval with hneg | ⟨h0, hlt, hget⟩
  · rw [hneg] at hge
    exact absurd hge (by decide)
  · exact ⟨hge, by simp only [binarySearch]; omega, hget,
      findElement_eq_binarySearch S (S.getD k 0)⟩

/-- Witness for claim C5 at S = [10, 20, 30], k = 1. -/
theorem claim_C5_witness :
    0 ≤ binarySearch [10, 20, 30] (([10, 20, 30] : List Int).getD 1 0) ∧
    (binarySearch [10, 20, 30] (([10, 20, 30] : List Int).getD 1 0)).toNat <
      ([10, 20, 30] : List Int).length ∧
    ([10, 20, 30] : List Int).getD
      (binarySearch [10, 20, 30] (([10, 20, 30] : List Int).getD 1 0)).toNat 0 =
      ([10, 20, 30] : List Int).getD 1 0 ∧
    findElement [10, 20, 30] (([10, 20, 30] : List Int).getD 1 0) =
      binarySearch [10, 20, 30] (([10, 20, 30] : List Int).getD 1 0) :=
  claim_C5_search_finds [10, 20, 30] (by simp [List.chain'_cons]) 1 (by decide)

/-- Claim C6: for every ascending-sorted sequence S and every integer v not
present in S, both searches return the sentinel -1; on the empty sequence the
loop condition fails immediately (no element is ever probed) and -1 is
returned. -/
theorem claim_C6_search_absent (S : List Int) (hs : List.Chain' (· ≤ ·) S) (v : Int)
    (hni : v ∉ S) :
    binarySearch S v = -1 ∧ findElement S v = -1 ∧
    (∀ w : Int, binarySearch [] w = -1 ∧ findElement [] w = -1 ∧
      searchAccesses ([] : List Int) w 0 ((([] : List Int).length : Int) - 1) = []) := by
  have hp : S.Pairwise (· ≤ ·) := List.chain'_iff_pairwise.mp hs
  have hfu := searchLoopFuel_binarySearchGo (S.length + 1) S v 0
    ((S.length : Int) - 1) (by omega)
  have hb : binarySearch S v = -1 :=
    searchLoopFuel_absent (S.length + 1) S v hni 0 ((S.length : Int) - 1)
      (binarySearchGo S v 0 ((S.length : Int) - 1)) (by omega) (by omega) hfu
  refine ⟨hb, (findElement_eq_binarySearch S v).trans hb, ?_⟩
  intro w
  have hfu0 := searchLoopFuel_binarySearchGo 1 ([] : List Int) w 0
    ((([] : List Int).length : Int) - 1) (by simp)
  have hb0 : binarySearch ([] : List Int) w = -1 :=
    searchLoopFuel_absent 1 ([] : List Int) w (List.not_mem_nil w) 0
      ((([] : List Int).length : Int) - 1)
      (binarySearchGo ([] : List Int) w 0 ((([] : List Int).length : Int) - 1))
      (by simp) (by simp) hfu0
  refine ⟨hb0, (findElement_eq_binarySearch [] w).trans hb0, ?_⟩
  rw [searchAccesses.eq_def]
  norm_num

/-- Witness for claim C6 at S = [1, 3], v = 2. -/
theorem claim_C6_witness :
    binarySearch [1, 3] 2 = -1 ∧ findElement [1, 3] 2 = -1 ∧
    (∀ w : Int, binarySearch [] w = -1 ∧ findElement [] w = -1 ∧
      searchAccesses ([] : List Int) w 0 ((([] : List Int).length : Int) - 1) = []) :=
  claim_C6_search_absent [1, 3] (by simp [List.chain'_cons]) 2 (by decide)

/-- Claim C7: every array read of the search loop started as in binarySearch
and findElement (low = 0, high = length - 1) happens at an in-bounds index;
moreover the midpoint low + (high - low) / 2 always lies between low and
high, and stays below 2^31 whenever high does (no int overflow). -/
theorem claim_C7_access_safety (S : List Int) (v : Int) :
    (∀ a ∈ searchAccesses S v 0 ((S.length : Int) - 1),
      0 ≤ a ∧ a < (S.length : Int)) ∧
    (∀ low high : Int, low ≤ high →
      low ≤ low + (high - low) / 2 ∧ low + (high - low) / 2 ≤ high) ∧
    (∀ low high : Int, 0 ≤ low → low ≤ high → high < 2147483648 →
      low + (high - low) / 2 < 2147483648) := by
  refine ⟨?_, ?_, ?_⟩
  · exact searchAccesses_bounds S.length S v 0 ((S.length : Int) - 1)
      (by omega) (by omega) (by omega)
  · intro low high h
    constructor <;> omega
  · intro low high h0 h1 h2
    omega

/-- Witness for claim C7 at S = [1, 2, 3], v = 2, window 0..2, and the
largest int window. -/
theorem claim_C7_witness :
    (∀ a ∈ searchAccesses [1, 2, 3] 2 0 ((([1, 2, 3] : List Int).length : Int) - 1),
      0 ≤ a ∧ a < (([1, 2, 3] : List Int).length : Int)) ∧
    ((0 : Int) ≤ 0 + ((2 : Int) - 0) / 2 ∧ (0 : Int) + ((2 : Int) - 0) / 2 ≤ 2) ∧
    ((0 : Int) + ((2147483647 : Int) - 0) / 2 < 2147483648) :=
  ⟨(claim_C7_access_safety [1, 2, 3] 2).1,
    (claim_C7_access_safety [1, 2, 3] 2).2.1 0 2 (by decide),
    (claim_C7_access_safety [1, 2, 3] 2).2.2 0 2147483647 (by decide) (by decide)
      (by decide)⟩

/-- Claim C8: both operations are total: the search loop of binarySearch and
findElement finishes within length + 1 iterations on every input (the fueled
loop returns some), and the sorts complete their bounded pass counts, acting
as the identity on empty and single-element sequences. -/
theorem claim_C8_termination (S : List Int) (v : Int) :
    searchLoopFuel (S.length + 1) S v 0 ((S.length : Int) - 1) = some (binarySearch S v) ∧
    searchLoopFuel (S.length + 1) S v 0 ((S.length : Int) - 1) = some (findElement S v) ∧
    bubbleSortPasses S = S.length - 1 ∧
    sortArrayPasses S ≤ S.length - 1 ∧
    bubbleSort [] = [] ∧ sortArray [] = [] ∧
    (∀ x : Int, bubbleSort [x] = [x] ∧ sortArray [x] = [x]) := by
  refine ⟨searchLoopFuel_binarySearchGo (S.length + 1) S v 0 ((S.length : Int) - 1)
      (by omega),
    searchLoopFuel_findElementGo (S.length + 1) S v 0 ((S.length : Int) - 1)
      (by omega),
    bubbleLoopCount_eq _ _, sortLoopCount_le _ _, rfl, rfl, fun x => ⟨rfl, rfl⟩⟩

/-- Claim C9: ExchangeSort is idempotent: applying either sort twice gives
the same sequence as applying it once. -/
theorem claim_C9_idempotent (S : List Int) :
    bubbleSort (bubbleSort S) = bubbleSort S ∧
    sortArray (sortArray S) = sortArray S := by
  refine ⟨bubbleSort_idem S, ?_⟩
  rw [sortArray_eq_bubbleSort, sortArray_eq_bubbleSort]
  exact bubbleSort_idem S

/-- Claim C10: for every input sequence (sorted or not) and every target, the
result of binarySearch and of findElement is either the sentinel -1 or an
in-bounds index whose element equals the target. -/
theorem claim_C10_result_shape (S : List Int) (v : Int) :
    (binarySearch S v = -1 ∨
      (0 ≤ binarySearch S v ∧ binarySearch S v < (S.length : Int) ∧
        S.getD (binarySearch S v).toNat 0 = v)) ∧
    (findElement S v = -1 ∨
      (0 ≤ findElement S v ∧ findElement S v < (S.length : Int) ∧
        S.getD (findElement S v).toNat 0 = v)) := by
  have hfu := searchLoopFuel_binarySearchGo (S.length + 1) S v 0
    ((S.length : Int) - 1) (by omega)
  have hval := searchLoopFuel_valid (S.length + 1) S v 0 ((S.length : Int) - 1)
    (binarySearchGo S v 0 ((S.length : Int) - 1)) (by omega) (by omega) hfu
  constructor
  · exact hval
  · rw [findElement_eq_binarySearch]
    exact hval
